import Mathlib

/-!
Verification of the normalization-and-scoring pipeline of
src/Data_Processing/data_processor.py (class SuiAptosDataProcessor).

The DataFrame rows are embedded as Lean structures, TVL and price values as
exact rationals (ℚ).  pandas NaN for a missing numeric value is embedded as
Option (none = NaN); division by zero, which in ℚ yields 0, is noted where it
could matter.  Functions that mutate a DataFrame received from the caller
(pandas column assignment writes in place) are embedded in state-passing
style, returning the possibly changed inputs alongside the result.
-/

set_option allowUnsafeReducibility true
set_option maxRecDepth 4000

attribute [semireducible] Rat.add Rat.mul Rat.sub Rat.inv

namespace SuiAptos

/-- One row of a protocol DataFrame, as built by load_raw_data (lines 80-94):
name, category, tvl_usd and the three change columns.  Fields that no claim
touches (slug, chain tag, collected date) are omitted. -/
structure Protocol where
  name : String
  category : String
  tvl : ℚ
  change1d : ℚ
  change7d : ℚ
  change1m : ℚ
deriving DecidableEq, Repr

/-- A protocol DataFrame: its rows plus whether the size_bracket column has
been added to it (pandas column assignment in _analyze_size_distribution,
lines 594-595, adds that column to the frame in place). -/
structure ProtocolDF where
  rows : List Protocol
  hasSizeBracketCol : Bool
deriving DecidableEq, Repr

/-- Lower-case a character list, embedding the case=False option of
pandas str.contains (line 367). -/
def lowChars (l : List Char) : List Char := l.map Char.toLower

/-- True when p occurs as a contiguous sublist of l. -/
def hasSub (l p : List Char) : Bool :=
  p.isPrefixOf l ||
    (match l with
     | [] => false
     | _ :: t => hasSub t p)

/-- Case-insensitive substring test, embedding
df["name"].str.contains(keyword, case=False) at line 367.  The pandas call
reads the keyword as a regular expression; the only metacharacter occurring
in the blocklist is ".", which matches any character and in particular the
literal dot, so every case-insensitive literal occurrence of a keyword is
removed by the source; this embedding is that literal-substring test. -/
def containsCI (name kw : String) : Bool :=
  hasSub (lowChars name.toList) (lowChars kw.toList)

/-- The exclusion blocklist exclude_keywords of clean_protocol_data,
lines 331-362, kept in source order. -/
def exclude_keywords : List String :=
  ["Binance", "binance", "BINANCE",
   "OKX", "okx", "OKEx",
   "Bybit", "bybit", "BYBIT",
   "Gate", "gate.io", "GATE",
   "HTX", "htx", "Huobi", "huobi",
   "KuCoin", "kucoin", "KUCOIN",
   "Bitfinex", "bitfinex", "BITFINEX",
   "Bitstamp", "bitstamp", "BITSTAMP",
   "MEXC", "mexc",
   "Kraken", "kraken", "KRAKEN",
   "Coinbase", "coinbase", "COINBASE",
   "HashKey Exchange", "hashkey",
   "Indodax", "indodax",
   "Phemex", "phemex",
   "FTX", "ftx",
   "Crypto.com", "crypto.com",
   "Bitget", "bitget",
   "XT.com", "xt.com",
   "CEX", "cex",
   "Exchange", "exchange", "EXCHANGE",
   "Trading", "trading",
   "Custody", "custody",
   "Wallet", "wallet"]

/-- Sequential per-keyword filtering loop of clean_protocol_data,
lines 365-370: for each keyword in order, drop the rows whose name contains
it case-insensitively. -/
def filter_keywords (ps : List Protocol) : List Protocol :=
  exclude_keywords.foldl
    (fun acc kw => acc.filter (fun p => !(containsCI p.name kw))) ps

/-- The TVL implausibility ceiling tvl_upper_limit = 100e9 of line 374. -/
def tvl_upper_limit : ℚ := 100000000000

/-- Row filtering of clean_protocol_data (lines 329-383): keyword exclusion,
then the TVL ceiling df[df.tvl_usd < tvl_upper_limit], then the non-positive
filter df[df.tvl_usd > 0].  Steps 4-8 of the source (outlier flag, category
mapping, derived columns, dense ranks, lines 385-422) assign new columns and
drop no rows, so the surviving row set is exactly this. -/
def clean_protocol_rows (ps : List Protocol) : List Protocol :=
  ((filter_keywords ps).filter (fun p => decide (p.tvl < tvl_upper_limit))).filter
    (fun p => decide (0 < p.tvl))

/-- clean_protocol_data in state-passing style: line 326 copies the input
(df = protocols_df.copy()) and all later writes go to the copy, so the
caller's frame comes back unchanged next to the cleaned rows. -/
def clean_protocol_data_call (raw : ProtocolDF) : ProtocolDF × List Protocol :=
  (raw, clean_protocol_rows raw.rows)

/-- Chain total TVL, df["tvl_usd"].sum() as at lines 624-625 and 693-694. -/
def totalTvl (ps : List Protocol) : ℚ := (ps.map Protocol.tvl).sum

/-- TVL scoring branch of _calculate_ecosystem_scores, lines 696-703:
if sui_tvl > aptos_tvl then sui scores 100 and aptos scores
(aptos_tvl / sui_tvl) * 100, otherwise aptos scores 100 and sui scores
(sui_tvl / aptos_tvl) * 100. -/
def tvl_scores (suiTvl aptosTvl : ℚ) : ℚ × ℚ :=
  if aptosTvl < suiTvl then (100, aptosTvl / suiTvl * 100)
  else (suiTvl / aptosTvl * 100, 100)

/-- The TVL score pair of _calculate_ecosystem_scores applied to the two
cleaned protocol collections (lines 693-703). -/
def ecosystem_tvl_scores (sui aptos : List Protocol) : ℚ × ℚ :=
  tvl_scores (totalTvl sui) (totalTvl aptos)

/-- One chain's concentration block of _analyze_concentration,
lines 628-639. -/
structure Concentration where
  top1Share : ℚ
  top5Share : ℚ
  top10Share : ℚ
  herfindahlIndex : ℚ
deriving DecidableEq, Repr

/-- Herfindahl index (df["tvl_usd"] / total).pow(2).sum() of lines 632
and 638.  When the total is 0 the ℚ convention x / 0 = 0 gives 0 where
pandas would give NaN; every claim about this value assumes positive TVLs,
where the two agree. -/
def herfindahl (ps : List Protocol) : ℚ :=
  (ps.map (fun p => (p.tvl / totalTvl ps) ^ 2)).sum

/-- One chain's part of _analyze_concentration (lines 622-640).  The source
takes df.iloc[0] for top_1_share and df.head(5) / df.head(10) for the other
shares, in arrival order and without sorting; iloc[0] on an empty frame
raises IndexError, embedded as none. -/
def conc_of (ps : List Protocol) : Option Concentration :=
  match ps with
  | [] => none
  | p0 :: _ =>
    some { top1Share := p0.tvl / totalTvl ps * 100
           top5Share := totalTvl (ps.take 5) / totalTvl ps * 100
           top10Share := totalTvl (ps.take 10) / totalTvl ps * 100
           herfindahlIndex := herfindahl ps }

/-- _analyze_concentration over both chains, lines 622-640. -/
def analyze_concentration (sui aptos : List Protocol) :
    Option Concentration × Option Concentration :=
  (conc_of sui, conc_of aptos)

/-- One chain's growth block of _compare_growth_metrics, lines 607-619. -/
structure GrowthSide where
  avg7dChange : Option ℚ
  avg30dChange : Option ℚ
  positiveGrowth7d : Nat
  negativeGrowth7d : Nat
deriving DecidableEq, Repr

/-- pandas Series.mean(): NaN (none) on an empty series, else the sum over
the count. -/
def meanQ (l : List ℚ) : Option ℚ :=
  match l with
  | [] => none
  | _ => some (l.sum / (l.length : ℚ))

/-- One chain's part of _compare_growth_metrics, lines 607-619. -/
def growth_of (ps : List Protocol) : GrowthSide :=
  { avg7dChange := meanQ (ps.map Protocol.change7d)
    avg30dChange := meanQ (ps.map Protocol.change1m)
    positiveGrowth7d := ps.countP (fun p => decide (0 < p.change7d))
    negativeGrowth7d := ps.countP (fun p => decide (p.change7d < 0)) }

/-- _compare_growth_metrics over both chains, lines 605-620. -/
def compare_growth_metrics (sui aptos : List Protocol) : GrowthSide × GrowthSide :=
  (growth_of sui, growth_of aptos)

/-- Lower edge of size bracket i: the bin edges [0, 1e6, 10e6, 100e6, 1e9,
inf] of line 591. -/
def binLoQ (i : Fin 5) : ℚ :=
  match i.val with
  | 0 => 0
  | 1 => 1000000
  | 2 => 10000000
  | 3 => 100000000
  | _ => 1000000000

/-- Upper edge of size bracket i; none stands for the +infinity top edge of
the bins of line 591. -/
def binHiQ (i : Fin 5) : Option ℚ :=
  match i.val with
  | 0 => some 1000000
  | 1 => some 10000000
  | 2 => some 100000000
  | 3 => some 1000000000
  | _ => none

/-- Membership of a TVL value in bracket i under pd.cut with right=True
(line 594): each interval is left-open and right-closed, (lo, hi]. -/
def inBracket (i : Fin 5) (t : ℚ) : Bool :=
  decide (binLoQ i < t) &&
    (match binHiQ i with
     | none => true
     | some hi => decide (t ≤ hi))

/-- value_counts over the size_bracket column (lines 597-598): how many rows
fall in each of the five brackets. -/
def bracket_counts (ps : List Protocol) : List Nat :=
  (List.finRange 5).map (fun i => ps.countP (fun p => inBracket i p.tvl))

/-- _analyze_size_distribution, lines 589-603, in state-passing style: the
column assignments sui_df["size_bracket"] = pd.cut(...) and
aptos_df["size_bracket"] = pd.cut(...) write a new column into the frames
the caller passed in, so both come back with the column flag set. -/
def analyze_size_distribution (sui aptos : ProtocolDF) :
    (List Nat × List Nat) × ProtocolDF × ProtocolDF :=
  ((bracket_counts sui.rows, bracket_counts aptos.rows),
   { sui with hasSizeBracketCol := true },
   { aptos with hasSizeBracketCol := true })

/-- One row of a price DataFrame (load_raw_data lines 192-198): date, price,
market cap proxy and volume.  Dates are day numbers; numeric values are
Option ℚ with none for a pandas NaN. -/
structure PriceRow where
  date : Int
  price : Option ℚ
  marketCap : Option ℚ
  volume : Option ℚ
deriving DecidableEq, Repr

/-- A raw price DataFrame: whether the date column is present (the check
at line 469 is on columns, not rows) and the rows. -/
structure PriceDF where
  hasDateCol : Bool
  rows : List PriceRow
deriving DecidableEq, Repr

/-- The cleaned price series of clean_price_data: the price column after
sorting and filling, the three pct_change columns, and cumulative_return.
The rolling mean and rolling std columns (lines 492-496) involve a real
square root, are read by no claim, and are omitted. -/
structure CleanPrice where
  prices : List ℚ
  change1d : List (Option ℚ)
  change7d : List (Option ℚ)
  change30d : List (Option ℚ)
  cumulativeReturn : List ℚ
deriving DecidableEq, Repr

/-- Stable insertion of a row into a date-ascending list: r goes before the
first row with a strictly later date. -/
def insertRow (r : PriceRow) : List PriceRow → List PriceRow
  | [] => [r]
  | s :: t => if r.date < s.date then r :: s :: t else s :: insertRow r t

/-- df.sort_values("date") of line 471. -/
def sortByDate : List PriceRow → List PriceRow
  | [] => []
  | r :: t => insertRow r (sortByDate t)

/-- fillna(method="ffill") then fillna(0) of lines 481-483: a missing value
takes the previous value, a missing value with no previous value takes 0. -/
def ffillFrom (acc : ℚ) : List (Option ℚ) → List ℚ
  | [] => []
  | none :: rest => acc :: ffillFrom acc rest
  | some x :: rest => x :: ffillFrom x rest

/-- Forward fill starting from no previous value. -/
def ffill (l : List (Option ℚ)) : List ℚ := ffillFrom 0 l

/-- Series.pct_change(periods=k) of lines 487-489: row i carries
price[i] / price[i-k] - 1 when i ≥ k, and NaN (none) before that. -/
def pctChange (k : Nat) (prices : List ℚ) : List (Option ℚ) :=
  (List.range prices.length).map (fun i =>
    if k ≤ i then some (prices.getD i 0 / prices.getD (i - k) 0 - 1) else none)

/-- The indicator part of clean_price_data, lines 468-508, on rows that
already carry a date column: sort by date, forward-fill the price column,
then either the len > 1 branch (pct_change over 1, min(7, len-1) and
min(30, len-1) periods, cumulative return against the first price) or the
single-row branch that sets every derived column to 0. -/
def processPrice (rows : List PriceRow) : CleanPrice :=
  let sorted := sortByDate rows
  let prices := ffill (sorted.map PriceRow.price)
  let n := prices.length
  if 1 < n then
    { prices := prices
      change1d := pctChange 1 prices
      change7d := pctChange (min 7 (n - 1)) prices
      change30d := pctChange (min 30 (n - 1)) prices
      cumulativeReturn := prices.map (fun p => (p / prices.headD 0 - 1) * 100) }
  else
    { prices := prices
      change1d := prices.map (fun _ => some 0)
      change7d := prices.map (fun _ => some 0)
      change30d := prices.map (fun _ => some 0)
      cumulativeReturn := prices.map (fun _ => 0) }

/-- The synthesized minimal series of lines 455-466: 30 rows at price 1.0,
market cap 0 and volume 0, dated backwards from the run date. -/
def placeholder_rows (today : Int) : List PriceRow :=
  (List.range 30).map (fun (i : ℕ) =>
    { date := today - (i : Int), price := some 1, marketCap := some 0,
      volume := some 0 })

/-- The empty DataFrame returned at line 474 when the date column is
missing. -/
def emptyCleanPrice : CleanPrice :=
  { prices := [], change1d := [], change7d := [], change30d := [],
    cumulativeReturn := [] }

/-- clean_price_data, lines 445-518.  Empty input is replaced by the
placeholder series (which carries dates) and processed; non-empty input
without a date column is returned as an empty DataFrame (line 474), not as
the placeholder.  today is the wall-clock date the source reads internally,
made an explicit parameter here. -/
def clean_price_data (today : Int) (df : PriceDF) : CleanPrice :=
  if df.rows.isEmpty then processPrice (placeholder_rows today)
  else if df.hasDateCol then processPrice df.rows
  else emptyCleanPrice

/-- clean_price_data in state-passing style: line 449 copies the input
(df = price_df.copy()), so the caller's frame comes back unchanged. -/
def clean_price_data_call (today : Int) (raw : PriceDF) : PriceDF × CleanPrice :=
  (raw, clean_price_data today raw)

/-- Series.cummax() helper: running maximum continued from m. -/
def cummaxFrom (m : ℚ) : List ℚ → List ℚ
  | [] => []
  | p :: t => max m p :: cummaxFrom (max m p) t

/-- Series.cummax() of line 670: the running maximum of the series. -/
def cummax : List ℚ → List ℚ
  | [] => []
  | p :: t => p :: cummaxFrom p t

/-- Series.max() on a list; 0 on the empty list, where pandas yields NaN
(the claims about it assume a non-empty series). -/
def listMax : List ℚ → ℚ
  | [] => 0
  | p :: t => t.foldl max p

/-- Max drawdown of _compare_risk_metrics, line 670:
(price.cummax() - price).max() / price.cummax().max() * 100 — the largest
absolute drop below the running peak, divided by the maximum of the
running-peak series. -/
def max_drawdown (prices : List ℚ) : ℚ :=
  listMax (List.zipWith (fun m p => m - p) (cummax prices) prices)
    / listMax (cummax prices) * 100

/-- Modelled from the spec: the max peak-to-trough decline as a percentage
of the running peak price at the time of the decline, i.e. the maximum over
all observations of (running peak - price) / running peak * 100.  Written
for comparison with max_drawdown, which is the source formula. -/
def spec_running_peak_drawdown (prices : List ℚ) : ℚ :=
  listMax (List.zipWith (fun m p => (m - p) / m * 100) (cummax prices) prices)

/-- Shorthand for a protocol row whose change columns are 0, used for
concrete instances. -/
def mkP (nm : String) (t : ℚ) : Protocol :=
  { name := nm, category := "DEX", tvl := t, change1d := 0, change7d := 0,
    change1m := 0 }

/-- Chain A of the spec's example scenario: protocol TVLs [500, 300, 200]. -/
def chainA : List Protocol := [mkP "a" 500, mkP "b" 300, mkP "c" 200]

/-- Chain B of the spec's example scenario: protocol TVLs [50, 30, 20]. -/
def chainB : List Protocol := [mkP "d" 50, mkP "e" 30, mkP "f" 20]

/-- The five-observation price series [1, 2, 3, 4, 5] on consecutive dates,
the scenario of the spec's time-series example. -/
def ex5 : PriceDF :=
  { hasDateCol := true
    rows := [{ date := 0, price := some 1, marketCap := some 0, volume := some 0 },
             { date := 1, price := some 2, marketCap := some 0, volume := some 0 },
             { date := 2, price := some 3, marketCap := some 0, volume := some 0 },
             { date := 3, price := some 4, marketCap := some 0, volume := some 0 },
             { date := 4, price := some 5, marketCap := some 0, volume := some 0 }] }

/-- Dividing each entry of a list by a constant divides the sum. -/
lemma sum_map_div_eq (l : List ℚ) (c : ℚ) :
    (l.map (fun x => x / c)).sum = l.sum / c := by
  induction l with
  | nil => simp
  | cons a t ih => simp [ih, add_div]

/-- A sum of squares is non-negative. -/
lemma sum_sq_nonneg (l : List ℚ) : 0 ≤ (l.map (fun x => x ^ 2)).sum := by
  induction l with
  | nil => simp
  | cons a t ih =>
    simp only [List.map_cons, List.sum_cons]
    have := sq_nonneg a
    linarith

/-- A sum of squares vanishes exactly when every entry vanishes. -/
lemma sum_sq_eq_zero_iff (l : List ℚ) :
    (l.map (fun x => x ^ 2)).sum = 0 ↔ ∀ x ∈ l, x = 0 := by
  induction l with
  | nil => simp
  | cons a t ih =>
    simp only [List.map_cons, List.sum_cons, List.mem_cons]
    constructor
    · intro h
      have ha : a ^ 2 = 0 := by nlinarith [sq_nonneg a, sum_sq_nonneg t]
      have ht : (t.map (fun x => x ^ 2)).sum = 0 := by nlinarith [sq_nonneg a, sum_sq_nonneg t]
      intro x hx
      rcases hx with rfl | hx
      · exact pow_eq_zero_iff (by norm_num) |>.mp ha
      · exact ih.mp ht x hx
    · intro h
      have ha : a = 0 := h a (Or.inl rfl)
      have ht : ∀ x ∈ t, x = 0 := fun x hx => h x (Or.inr hx)
      rw [ha, ih.mpr ht]
      norm_num

/-- Expansion of a sum of shifted squares. -/
lemma sum_shift_sq (l : List ℚ) (c : ℚ) :
    (l.map (fun x => (x - c) ^ 2)).sum
      = (l.map (fun x => x ^ 2)).sum - 2 * c * l.sum + (l.length : ℚ) * c ^ 2 := by
  induction l with
  | nil => simp
  | cons a t ih =>
    simp only [List.map_cons, List.sum_cons, List.length_cons]
    push_cast
    rw [ih]
    ring

/-- A non-empty list of positive rationals has a positive sum. -/
lemma sum_pos_of_forall_pos (l : List ℚ) (hne : l ≠ []) (h : ∀ x ∈ l, 0 < x) :
    0 < l.sum := by
  cases l with
  | nil => exact absurd rfl hne
  | cons a t =>
    simp only [List.sum_cons]
    have ha := h a (List.mem_cons_self a t)
    have ht : 0 ≤ t.sum :=
      List.sum_nonneg (fun x hx => le_of_lt (h x (List.mem_cons_of_mem a hx)))
    linarith

/-- For non-negative entries the sum of squares is at most the square of the
sum. -/
lemma sum_sq_le_sq_sum (l : List ℚ) (h : ∀ x ∈ l, 0 ≤ x) :
    (l.map (fun x => x ^ 2)).sum ≤ l.sum ^ 2 := by
  induction l with
  | nil => simp
  | cons a t ih =>
    simp only [List.map_cons, List.sum_cons]
    have ha : 0 ≤ a := h a (List.mem_cons_self a t)
    have hts : 0 ≤ t.sum :=
      List.sum_nonneg (fun x hx => h x (List.mem_cons_of_mem a hx))
    have iht := ih (fun x hx => h x (List.mem_cons_of_mem a hx))
    nlinarith

/-- With at least two positive entries the inequality of sum_sq_le_sq_sum is
strict. -/
lemma sum_sq_lt_sq_sum (a : ℚ) (t : List ℚ) (hte : t ≠ [])
    (h : ∀ x ∈ a :: t, 0 < x) :
    ((a :: t).map (fun x => x ^ 2)).sum < (a :: t).sum ^ 2 := by
  have ha : 0 < a := h a (List.mem_cons_self a t)
  have hts : 0 < t.sum :=
    sum_pos_of_forall_pos t hte (fun x hx => h x (List.mem_cons_of_mem a hx))
  have h2 : (t.map (fun x => x ^ 2)).sum ≤ t.sum ^ 2 :=
    sum_sq_le_sq_sum t (fun x hx => le_of_lt (h x (List.mem_cons_of_mem a hx)))
  simp only [List.map_cons, List.sum_cons]
  nlinarith

/-- A list all of whose entries equal c sums to length times c. -/
lemma sum_const_of_all_eq (l : List ℚ) (c : ℚ) (h : ∀ x ∈ l, x = c) :
    l.sum = (l.length : ℚ) * c := by
  induction l with
  | nil => simp
  | cons a t ih =>
    simp only [List.sum_cons, List.length_cons]
    rw [h a (List.mem_cons_self a t), ih (fun x hx => h x (List.mem_cons_of_mem a hx))]
    push_cast
    ring

/-- In a list of positive rationals, an entry equal to the whole sum forces
the list to be that single entry. -/
lemma eq_singleton_of_mem_eq_sum (l : List ℚ) (h : ∀ x ∈ l, 0 < x) (a : ℚ)
    (ha : a ∈ l) (hs : a = l.sum) : l = [a] := by
  induction l with
  | nil => exact absurd ha (List.not_mem_nil a)
  | cons b t ih =>
    rcases List.mem_cons.mp ha with hab | hat
    · subst hab
      cases t with
      | nil => rfl
      | cons c u =>
        exfalso
        have hpos : 0 < (c :: u).sum :=
          sum_pos_of_forall_pos _ (by simp)
            (fun x hx => h x (List.mem_cons_of_mem a hx))
        simp only [List.sum_cons] at hs hpos
        linarith
    · have hb : 0 < b := h b (List.mem_cons_self b t)
      have hat' : a ≤ t.sum :=
        List.single_le_sum (fun x hx => le_of_lt (h x (List.mem_cons_of_mem b hx))) a hat
      simp only [List.sum_cons] at hs
      linarith

/-- Folding max over entries all at most the seed returns the seed. -/
lemma foldl_max_of_le (l : List ℚ) (a : ℚ) (h : ∀ x ∈ l, x ≤ a) :
    l.foldl max a = a := by
  induction l generalizing a with
  | nil => rfl
  | cons b t ih =>
    simp only [List.foldl_cons]
    rw [max_eq_left (h b (List.mem_cons_self b t))]
    exact ih a (fun x hx => h x (List.mem_cons_of_mem b hx))

/-- Folding max over the running-maximum list equals folding max over the
original list, provided the seed dominates the continuation start. -/
lemma foldl_max_cummaxFrom (t : List ℚ) (m c : ℚ) (hmc : m ≤ c) :
    (cummaxFrom m t).foldl max c = t.foldl max c := by
  induction t generalizing m c with
  | nil => rfl
  | cons x u ih =>
    simp only [cummaxFrom, List.foldl_cons]
    have h1 : max c (max m x) = max c x := by
      rw [← max_assoc, max_eq_left hmc]
    rw [h1]
    exact ih (max m x) (max c x) (max_le_max hmc (le_refl x))

/-- The maximum of the running-maximum series equals the maximum of the
series itself. -/
lemma listMax_cummax (l : List ℚ) : listMax (cummax l) = listMax l := by
  cases l with
  | nil => rfl
  | cons p t =>
    simp only [cummax, listMax]
    exact foldl_max_cummaxFrom t p p (le_refl p)

/-- Surviving the sequential keyword-filter loop means matching none of the
keywords processed so far. -/
lemma mem_foldl_filter (ks : List String) (ps : List Protocol) (p : Protocol)
    (hp : p ∈ ks.foldl
      (fun acc kw => acc.filter (fun q => !(containsCI q.name kw))) ps) :
    p ∈ ps ∧ ∀ kw ∈ ks, containsCI p.name kw = false := by
  induction ks generalizing ps with
  | nil => exact ⟨hp, by simp⟩
  | cons k kt ih =>
    simp only [List.foldl_cons] at hp
    obtain ⟨hmem, hrest⟩ := ih _ hp
    obtain ⟨hin, hk⟩ := List.mem_filter.mp hmem
    refine ⟨hin, fun kw hkw => ?_⟩
    rcases List.mem_cons.mp hkw with rfl | hkw'
    · simpa using hk
    · exact hrest kw hkw'

/-- C1: with both chain totals positive and one strictly larger, the TVL
scoring branch of _calculate_ecosystem_scores gives the leading chain
exactly 100 and the other chain (its total TVL / leader total TVL) * 100, a
value in (0, 100], and swapping which chain leads swaps the two scores, with
no chain hardcoded. -/
theorem C1_tvl_score_leader (sui aptos : List Protocol)
    (hs : 0 < totalTvl sui) (ha : 0 < totalTvl aptos)
    (hlt : totalTvl aptos < totalTvl sui) :
    ecosystem_tvl_scores sui aptos = (100, totalTvl aptos / totalTvl sui * 100) ∧
    0 < totalTvl aptos / totalTvl sui * 100 ∧
    totalTvl aptos / totalTvl sui * 100 ≤ 100 ∧
    ecosystem_tvl_scores aptos sui = (totalTvl aptos / totalTvl sui * 100, 100) := by
  unfold ecosystem_tvl_scores tvl_scores
  rw [if_pos hlt, if_neg (not_lt.mpr (le_of_lt hlt))]
  refine ⟨rfl, ?_, ?_, rfl⟩
  · have h0 := div_pos ha hs
    linarith
  · have h1 : totalTvl aptos / totalTvl sui ≤ 1 := (div_le_one hs).mpr (le_of_lt hlt)
    linarith

/-- C1 witness on the example chains with totals 1000 and 100. -/
theorem C1_tvl_score_leader_witness :
    ecosystem_tvl_scores chainA chainB = (100, totalTvl chainB / totalTvl chainA * 100) ∧
    0 < totalTvl chainB / totalTvl chainA * 100 ∧
    totalTvl chainB / totalTvl chainA * 100 ≤ 100 ∧
    ecosystem_tvl_scores chainB chainA = (totalTvl chainB / totalTvl chainA * 100, 100) :=
  C1_tvl_score_leader chainA chainB (by decide) (by decide) (by decide)

/-- C2: every record surviving the Protocol Normalizer has strictly positive
TVL and its name contains no blocklist keyword under case-insensitive
matching. -/
theorem C2_normalization_invariant (ps : List Protocol) (p : Protocol)
    (hp : p ∈ clean_protocol_rows ps) :
    0 < p.tvl ∧ ∀ kw ∈ exclude_keywords, containsCI p.name kw = false := by
  unfold clean_protocol_rows at hp
  obtain ⟨hp1, htvl⟩ := List.mem_filter.mp hp
  obtain ⟨hp2, _hceil⟩ := List.mem_filter.mp hp1
  have hkw := (mem_foldl_filter exclude_keywords ps p hp2).2
  exact ⟨by simpa using htvl, hkw⟩

/-- C2 witness: a clean record among a raw collection that also carries an
exchange-named record and a zero-TVL record. -/
theorem C2_normalization_invariant_witness :
    0 < (mkP "Cetus" 5).tvl ∧
      ∀ kw ∈ exclude_keywords, containsCI (mkP "Cetus" 5).name kw = false :=
  C2_normalization_invariant [mkP "Cetus" 5, mkP "Binance Earn" 7, mkP "Zero" 0]
    (mkP "Cetus" 5) (by decide)

/-- C3 counterexample: on arrival order [200, 500, 300] the concentration
analysis reports top-1 share 20, not the largest-protocol share 50; the
source reads df.iloc[0] without sorting, so the claim fails on inputs that
do not arrive sorted by TVL descending. -/
theorem C3_counterexample :
    (conc_of [mkP "a" 200, mkP "b" 500, mkP "c" 300]).map Concentration.top1Share
        = some 20 ∧
    listMax ([mkP "a" 200, mkP "b" 500, mkP "c" 300].map Protocol.tvl)
        / totalTvl [mkP "a" 200, mkP "b" 500, mkP "c" 300] * 100 = 50 ∧
    (20 : ℚ) ≠ 50 := by
  decide

/-- C3 amended: _analyze_concentration does not sort; top_1_share is the
first row's share of total TVL (and the top-5/top-10 shares are over the
first 5 and 10 rows in arrival order).  When the rows already arrive sorted
by TVL descending, top_1_share does equal the largest protocol's TVL over
total TVL times 100. -/
theorem C3_concentration_first_row (ps : List Protocol) (hne : ps ≠ [])
    (hsorted : List.Pairwise (fun p q => q.tvl ≤ p.tvl) ps) :
    ∃ c, conc_of ps = some c ∧
      c.top1Share = listMax (ps.map Protocol.tvl) / totalTvl ps * 100 := by
  cases ps with
  | nil => exact absurd rfl hne
  | cons p0 t =>
    refine ⟨_, rfl, ?_⟩
    have hd : ∀ x ∈ t.map Protocol.tvl, x ≤ p0.tvl := by
      intro x hx
      rcases List.mem_map.mp hx with ⟨q, hq, rfl⟩
      exact (List.pairwise_cons.mp hsorted).1 q hq
    show p0.tvl / totalTvl (p0 :: t) * 100 = _
    simp only [List.map_cons, listMax]
    rw [foldl_max_of_le _ _ hd]

/-- C3 witness on the example chain, which arrives sorted descending. -/
theorem C3_concentration_first_row_witness :
    ∃ c, conc_of chainA = some c ∧
      c.top1Share = listMax (chainA.map Protocol.tvl) / totalTvl chainA * 100 :=
  C3_concentration_first_row chainA (by decide) (by decide)

/-- C4 (code bug): on an empty chain _analyze_concentration fails —
df.iloc[0] on an empty frame raises IndexError, embedded as none — and
_compare_growth_metrics produces NaN means (none), instead of the zeroed
aggregates and 0-substituted zero-denominator ratios the claim requires. -/
theorem C4_empty_chain_failure :
    (analyze_concentration [] chainB).1 = none ∧
    (compare_growth_metrics [] chainB).1.avg7dChange = none ∧
    (compare_growth_metrics [] chainB).1.avg30dChange = none := by
  decide

/-- C9 counterexample: _analyze_size_distribution hands the first protocol
frame back with a size_bracket column it did not have before the call, so
the Comparative Aggregator does not leave the structures it receives
unchanged (their columns differ before and after). -/
theorem C9_counterexample :
    (analyze_size_distribution { rows := chainA, hasSizeBracketCol := false }
        { rows := chainB, hasSizeBracketCol := false }).2.1
      ≠ { rows := chainA, hasSizeBracketCol := false } := by
  decide

/-- C9 amended: both normalizers copy their inputs and hand them back
unchanged; inside the Comparative Aggregator, _analyze_size_distribution
preserves every row (all field values and the row count) of both protocol
frames but adds the size_bracket column to each in place; the price frames
are not written to. -/
theorem C9_frame_behavior (raw : ProtocolDF) (today : Int) (praw : PriceDF)
    (sui aptos : ProtocolDF) :
    (clean_protocol_data_call raw).1 = raw ∧
    (clean_price_data_call today praw).1 = praw ∧
    (analyze_size_distribution sui aptos).2.1.rows = sui.rows ∧
    (analyze_size_distribution sui aptos).2.2.rows = aptos.rows ∧
    (analyze_size_distribution sui aptos).2.1.hasSizeBracketCol = true ∧
    (analyze_size_distribution sui aptos).2.2.hasSizeBracketCol = true :=
  ⟨rfl, rfl, rfl, rfl, rfl, rfl⟩

/-- Bracket membership spelled out per bracket index. -/
lemma inBracket_cases (t : ℚ) (i : Fin 5) :
    inBracket i t = true ↔
      (i = 0 ∧ 0 < t ∧ t ≤ 1000000) ∨
      (i = 1 ∧ 1000000 < t ∧ t ≤ 10000000) ∨
      (i = 2 ∧ 10000000 < t ∧ t ≤ 100000000) ∨
      (i = 3 ∧ 100000000 < t ∧ t ≤ 1000000000) ∨
      (i = 4 ∧ 1000000000 < t) := by
  fin_cases i <;>
    simp [inBracket, binLoQ, binHiQ, Fin.ext_iff,
      show ((0 : Fin 5) : ℕ) = 0 from rfl, show ((1 : Fin 5) : ℕ) = 1 from rfl,
      show ((2 : Fin 5) : ℕ) = 2 from rfl, show ((3 : Fin 5) : ℕ) = 3 from rfl,
      show ((4 : Fin 5) : ℕ) = 4 from rfl]

/-- Each strictly positive TVL value lies in exactly one of the five pd.cut
brackets. -/
lemma inBracket_exists_unique (t : ℚ) (ht : 0 < t) :
    ∃! i : Fin 5, inBracket i t = true := by
  have uniq : ∀ i0 : Fin 5, inBracket i0 t = true →
      ∀ j : Fin 5, inBracket j t = true → j = i0 := by
    intro i0 hi0 j hj
    rcases (inBracket_cases t i0).mp hi0 with ⟨r0, h⟩ | ⟨r0, h⟩ | ⟨r0, h⟩ | ⟨r0, h⟩ | ⟨r0, h⟩ <;>
      rcases (inBracket_cases t j).mp hj with ⟨rj, g⟩ | ⟨rj, g⟩ | ⟨rj, g⟩ | ⟨rj, g⟩ | ⟨rj, g⟩ <;>
        subst r0 <;> subst rj <;> first
          | rfl
          | (exfalso
             rcases h with ⟨h1, h2⟩ <;> rcases g with ⟨g1, g2⟩ <;> linarith)
          | (exfalso; rcases h with ⟨h1, h2⟩; linarith)
          | (exfalso; rcases g with ⟨g1, g2⟩; linarith)
  rcases le_or_lt t 1000000 with h1 | h1
  · exact ⟨0, (inBracket_cases t 0).mpr (Or.inl ⟨rfl, ht, h1⟩), fun j hj =>
      uniq 0 ((inBracket_cases t 0).mpr (Or.inl ⟨rfl, ht, h1⟩)) j hj⟩
  rcases le_or_lt t 10000000 with h2 | h2
  · exact ⟨1, (inBracket_cases t 1).mpr (Or.inr (Or.inl ⟨rfl, h1, h2⟩)), fun j hj =>
      uniq 1 ((inBracket_cases t 1).mpr (Or.inr (Or.inl ⟨rfl, h1, h2⟩))) j hj⟩
  rcases le_or_lt t 100000000 with h3 | h3
  · exact ⟨2, (inBracket_cases t 2).mpr (Or.inr (Or.inr (Or.inl ⟨rfl, h2, h3⟩))), fun j hj =>
      uniq 2 ((inBracket_cases t 2).mpr (Or.inr (Or.inr (Or.inl ⟨rfl, h2, h3⟩)))) j hj⟩
  rcases le_or_lt t 1000000000 with h4 | h4
  · exact ⟨3, (inBracket_cases t 3).mpr
      (Or.inr (Or.inr (Or.inr (Or.inl ⟨rfl, h3, h4⟩)))), fun j hj =>
      uniq 3 ((inBracket_cases t 3).mpr
        (Or.inr (Or.inr (Or.inr (Or.inl ⟨rfl, h3, h4⟩))))) j hj⟩
  · exact ⟨4, (inBracket_cases t 4).mpr
      (Or.inr (Or.inr (Or.inr (Or.inr ⟨rfl, h4⟩)))), fun j hj =>
      uniq 4 ((inBracket_cases t 4).mpr
        (Or.inr (Or.inr (Or.inr (Or.inr ⟨rfl, h4⟩))))) j hj⟩

/-- The five bracket indicators of a positive value sum to one. -/
lemma bracket_indicator_sum (x : ℚ) (hx : 0 < x) :
    ((List.finRange 5).map
      (fun i => if inBracket i x = true then (1 : ℕ) else 0)).sum = 1 := by
  obtain ⟨i0, hi0, huniq⟩ := inBracket_exists_unique x hx
  have hmap : (List.finRange 5).map (fun i => if inBracket i x = true then (1 : ℕ) else 0)
      = (List.finRange 5).map (fun i => if i = i0 then (1 : ℕ) else 0) := by
    apply List.map_congr_left
    intro i _
    by_cases hii : i = i0
    · subst hii
      simp [hi0]
    · have hnb : ¬ inBracket i x = true := fun hc => hii (huniq i hc)
      simp [hii, hnb]
  rw [hmap]
  fin_cases i0 <;> decide

/-- Summing a pointwise sum of two ℕ-valued maps splits. -/
lemma sum_map_add_nat {α : Type} (l : List α) (f g : α → ℕ) :
    (l.map (fun i => f i + g i)).sum = (l.map f).sum + (l.map g).sum := by
  induction l with
  | nil => rfl
  | cons a t ih =>
    simp only [List.map_cons, List.sum_cons, ih]
    omega

/-- Over rows with positive TVL the five bracket counts sum to the row
count: each row is counted exactly once. -/
lemma bracket_counts_sum (ps : List Protocol) (hpos : ∀ p ∈ ps, 0 < p.tvl) :
    (bracket_counts ps).sum = ps.length := by
  induction ps with
  | nil => decide
  | cons p t ih =>
    have hp := hpos p (List.mem_cons_self p t)
    have ht : ∀ q ∈ t, 0 < q.tvl := fun q hq => hpos q (List.mem_cons_of_mem p hq)
    have hcons : ∀ i : Fin 5, (p :: t).countP (fun q => inBracket i q.tvl)
        = t.countP (fun q => inBracket i q.tvl)
          + (if inBracket i p.tvl = true then 1 else 0) := by
      intro i
      rw [List.countP_cons]
    calc (bracket_counts (p :: t)).sum
        = ((List.finRange 5).map (fun i => t.countP (fun q => inBracket i q.tvl)
            + if inBracket i p.tvl = true then 1 else 0)).sum :=
          congrArg List.sum (List.map_congr_left (fun i _ => hcons i))
      _ = (bracket_counts t).sum
            + ((List.finRange 5).map
                (fun i => if inBracket i p.tvl = true then (1 : ℕ) else 0)).sum := by
          rw [sum_map_add_nat]
          rfl
      _ = t.length + 1 := by rw [ih ht, bracket_indicator_sum p.tvl hp]
      _ = (p :: t).length := by simp

/-- C10: under pd.cut with the bins of line 591, every strictly positive TVL
falls in exactly one of the five left-open right-closed brackets — so each
normalized protocol is counted once in the size distribution — and a value
exactly on a boundary falls in the lower bracket: exactly 1e6 is counted in
the first bracket and not the second, and exactly 1e9 in the fourth and not
the fifth. -/
theorem C10_size_bracket_partition (ps : List Protocol)
    (hpos : ∀ p ∈ ps, 0 < p.tvl) :
    (∀ p ∈ ps, ∃! i : Fin 5, inBracket i p.tvl = true) ∧
    (bracket_counts ps).sum = ps.length ∧
    inBracket 0 1000000 = true ∧ inBracket 1 1000000 = false ∧
    inBracket 3 1000000000 = true ∧ inBracket 4 1000000000 = false :=
  ⟨fun p hp => inBracket_exists_unique p.tvl (hpos p hp),
   bracket_counts_sum ps hpos, by decide, by decide, by decide, by decide⟩

/-- C10 witness on two rows, one exactly at the 1e6 boundary. -/
theorem C10_size_bracket_partition_witness :
    (∀ p ∈ [mkP "a" 1000000, mkP "b" 2000000000],
        ∃! i : Fin 5, inBracket i p.tvl = true) ∧
    (bracket_counts [mkP "a" 1000000, mkP "b" 2000000000]).sum
        = [mkP "a" 1000000, mkP "b" 2000000000].length ∧
    inBracket 0 1000000 = true ∧ inBracket 1 1000000 = false ∧
    inBracket 3 1000000000 = true ∧ inBracket 4 1000000000 = false :=
  C10_size_bracket_partition [mkP "a" 1000000, mkP "b" 2000000000] (by decide)

/-- The TVL weights of a non-empty positive list sum to one. -/
lemma weight_sum_one (ts : List ℚ) (hne : ts ≠ []) (hpos : ∀ x ∈ ts, 0 < x) :
    (ts.map (fun x => x / ts.sum)).sum = 1 := by
  rw [sum_map_div_eq]
  exact div_self (ne_of_gt (sum_pos_of_forall_pos ts hne hpos))

/-- Lower Herfindahl bound: the sum of squared weights of n positive values
is at least 1/n. -/
lemma weight_sumsq_lower (ts : List ℚ) (hne : ts ≠ []) (hpos : ∀ x ∈ ts, 0 < x) :
    1 / (ts.length : ℚ)
      ≤ ((ts.map (fun x => x / ts.sum)).map (fun w => w ^ 2)).sum := by
  have hn0 : (0 : ℚ) < (ts.length : ℚ) := by
    have := List.length_pos.mpr hne
    exact_mod_cast this
  have hsum1 := weight_sum_one ts hne hpos
  have hlen : (((ts.map (fun x => x / ts.sum)).length : ℕ) : ℚ) = (ts.length : ℚ) := by
    simp
  have hshift := sum_shift_sq (ts.map (fun x => x / ts.sum)) (1 / (ts.length : ℚ))
  rw [hsum1, hlen] at hshift
  have h0 : 0 ≤ ((ts.map (fun x => x / ts.sum)).map
      (fun x => (x - 1 / (ts.length : ℚ)) ^ 2)).sum := by
    have h := sum_sq_nonneg ((ts.map (fun x => x / ts.sum)).map
      (fun x => x - 1 / (ts.length : ℚ)))
    rw [List.map_map] at h
    exact h
  have hfin : (ts.length : ℚ) * (1 / (ts.length : ℚ)) ^ 2 = 1 / (ts.length : ℚ) := by
    field_simp
    ring
  linarith [h0, hshift, hfin]

/-- Upper Herfindahl bound: the sum of squared weights is at most 1. -/
lemma weight_sumsq_upper (ts : List ℚ) (hne : ts ≠ []) (hpos : ∀ x ∈ ts, 0 < x) :
    ((ts.map (fun x => x / ts.sum)).map (fun w => w ^ 2)).sum ≤ 1 := by
  have hS := sum_pos_of_forall_pos ts hne hpos
  have hwnn : ∀ w ∈ ts.map (fun x => x / ts.sum), 0 ≤ w := by
    intro w hw
    rcases List.mem_map.mp hw with ⟨x, hx, rfl⟩
    exact le_of_lt (div_pos (hpos x hx) hS)
  have h := sum_sq_le_sq_sum _ hwnn
  rw [weight_sum_one ts hne hpos] at h
  simpa using h

/-- The sum of squared weights is exactly 1 iff one value is the whole
sum. -/
lemma weight_sumsq_eq_one_iff (ts : List ℚ) (hne : ts ≠ []) (hpos : ∀ x ∈ ts, 0 < x) :
    ((ts.map (fun x => x / ts.sum)).map (fun w => w ^ 2)).sum = 1
      ↔ ∃ a ∈ ts, a = ts.sum := by
  have hS := sum_pos_of_forall_pos ts hne hpos
  constructor
  · intro h1
    cases ts with
    | nil => exact absurd rfl hne
    | cons a t =>
      cases t with
      | nil => exact ⟨a, List.mem_cons_self a [], by simp⟩
      | cons b u =>
        exfalso
        have hwpos : ∀ w ∈ (a :: b :: u).map (fun x => x / (a :: b :: u).sum), 0 < w := by
          intro w hw
          rcases List.mem_map.mp hw with ⟨x, hx, rfl⟩
          exact div_pos (hpos x hx) hS
        have hlt := sum_sq_lt_sq_sum (a / (a :: b :: u).sum)
          ((b :: u).map (fun x => x / (a :: b :: u).sum)) (by simp) hwpos
        have hsum1 := weight_sum_one (a :: b :: u) hne hpos
        rw [show (a / (a :: b :: u).sum :: (b :: u).map (fun x => x / (a :: b :: u).sum))
            = (a :: b :: u).map (fun x => x / (a :: b :: u).sum) from rfl] at hlt
        rw [hsum1] at hlt
        simp only [one_pow] at hlt
        linarith
  · rintro ⟨a, ha, hsum⟩
    have ha0 : 0 < a := hpos a ha
    have hsingle := eq_singleton_of_mem_eq_sum ts hpos a ha hsum
    rw [hsingle]
    simp [div_self (ne_of_gt ha0)]

/-- The sum of squared weights is exactly 1/n iff all values are equal. -/
lemma weight_sumsq_eq_invlen_iff (ts : List ℚ) (hne : ts ≠ [])
    (hpos : ∀ x ∈ ts, 0 < x) :
    ((ts.map (fun x => x / ts.sum)).map (fun w => w ^ 2)).sum = 1 / (ts.length : ℚ)
      ↔ ∀ a ∈ ts, ∀ b ∈ ts, a = b := by
  have hS := sum_pos_of_forall_pos ts hne hpos
  have hn0 : (0 : ℚ) < (ts.length : ℚ) := by
    have := List.length_pos.mpr hne
    exact_mod_cast this
  have hsum1 := weight_sum_one ts hne hpos
  have hlen : (((ts.map (fun x => x / ts.sum)).length : ℕ) : ℚ) = (ts.length : ℚ) := by
    simp
  have hshift := sum_shift_sq (ts.map (fun x => x / ts.sum)) (1 / (ts.length : ℚ))
  rw [hsum1, hlen] at hshift
  have hfin : (ts.length : ℚ) * (1 / (ts.length : ℚ)) ^ 2 = 1 / (ts.length : ℚ) := by
    field_simp
    ring
  constructor
  · intro heq
    have hz : ((ts.map (fun x => x / ts.sum)).map
        (fun x => (x - 1 / (ts.length : ℚ)) ^ 2)).sum = 0 := by
      linarith [hshift, hfin]
    have hz2 : (((ts.map (fun x => x / ts.sum)).map
        (fun x => x - 1 / (ts.length : ℚ))).map (fun x => x ^ 2)).sum = 0 := by
      rw [List.map_map]
      exact hz
    have hall := (sum_sq_eq_zero_iff _).mp hz2
    have hweq : ∀ x ∈ ts, x / ts.sum = 1 / (ts.length : ℚ) := by
      intro x hx
      have hmem : x / ts.sum - 1 / (ts.length : ℚ)
          ∈ (ts.map (fun x => x / ts.sum)).map (fun x => x - 1 / (ts.length : ℚ)) := by
        exact List.mem_map_of_mem _ (List.mem_map_of_mem _ hx)
      have := hall _ hmem
      linarith [this]
    intro a haa b hbb
    have h1 := hweq a haa
    have h2 := hweq b hbb
    have h3 : a / ts.sum = b / ts.sum := by rw [h1, h2]
    field_simp at h3
    exact h3
  · intro hall
    cases ts with
    | nil => exact absurd rfl hne
    | cons a t =>
      have hconst : ∀ x ∈ a :: t, x = a :=
        fun x hx => hall x hx a (List.mem_cons_self a t)
      have ha0 : 0 < a := hpos a (List.mem_cons_self a t)
      have hsum : (a :: t).sum = ((a :: t).length : ℚ) * a :=
        sum_const_of_all_eq (a :: t) a hconst
      have hwconst : ∀ y ∈ ((a :: t).map (fun x => x / (a :: t).sum)).map
          (fun w => w ^ 2), y = (1 / ((a :: t).length : ℚ)) ^ 2 := by
        intro y hy
        rcases List.mem_map.mp hy with ⟨w, hw, rfl⟩
        rcases List.mem_map.mp hw with ⟨x, hx, rfl⟩
        rw [hconst x hx, hsum]
        congr 1
        rw [div_eq_div_iff (by positivity) (by positivity)]
        ring
      have hsum2 := sum_const_of_all_eq _ _ hwconst
      rw [hsum2]
      simp only [List.length_map, List.length_cons]
      have hne0 : ((t.length + 1 : ℕ) : ℚ) ≠ 0 := by positivity
      field_simp
      ring

/-- C5: for a non-empty chain of protocols with strictly positive TVLs, the
Herfindahl index of _analyze_concentration lies in [1/n, 1]; it equals 1
exactly when a single protocol holds the whole total TVL, and equals 1/n
exactly when all protocols have equal TVL. -/
theorem C5_herfindahl_bounds (ps : List Protocol) (hne : ps ≠ [])
    (hpos : ∀ p ∈ ps, 0 < p.tvl) :
    (1 / (ps.length : ℚ) ≤ herfindahl ps ∧ herfindahl ps ≤ 1) ∧
    (herfindahl ps = 1 ↔ ∃ p ∈ ps, p.tvl = totalTvl ps) ∧
    (herfindahl ps = 1 / (ps.length : ℚ) ↔ ∀ p ∈ ps, ∀ q ∈ ps, p.tvl = q.tvl) := by
  have hts_ne : ps.map Protocol.tvl ≠ [] := by simpa using hne
  have htpos : ∀ x ∈ ps.map Protocol.tvl, 0 < x := by
    intro x hx
    rcases List.mem_map.mp hx with ⟨p, hp, rfl⟩
    exact hpos p hp
  have hH : herfindahl ps
      = (((ps.map Protocol.tvl).map (fun x => x / (ps.map Protocol.tvl).sum)).map
          (fun w => w ^ 2)).sum := by
    rw [List.map_map, List.map_map]
    rfl
  have hlen : ((ps.map Protocol.tvl).length : ℚ) = (ps.length : ℚ) := by simp
  refine ⟨⟨?_, ?_⟩, ?_, ?_⟩
  · have h := weight_sumsq_lower _ hts_ne htpos
    rw [hlen] at h
    rw [hH]
    exact h
  · rw [hH]
    exact weight_sumsq_upper _ hts_ne htpos
  · rw [hH]
    rw [weight_sumsq_eq_one_iff _ hts_ne htpos]
    constructor
    · rintro ⟨a, ha, hs⟩
      rcases List.mem_map.mp ha with ⟨p, hp, rfl⟩
      exact ⟨p, hp, hs⟩
    · rintro ⟨p, hp, hs⟩
      exact ⟨p.tvl, List.mem_map_of_mem _ hp, hs⟩
  · rw [hH]
    have h := weight_sumsq_eq_invlen_iff _ hts_ne htpos
    rw [hlen] at h
    rw [h]
    constructor
    · intro hall p hp q hq
      exact hall p.tvl (List.mem_map_of_mem _ hp) q.tvl (List.mem_map_of_mem _ hq)
    · intro hall a ha b hb
      rcases List.mem_map.mp ha with ⟨p, hp, rfl⟩
      rcases List.mem_map.mp hb with ⟨q, hq, rfl⟩
      exact hall p hp q hq

/-- C5 witness on a two-protocol chain of equal TVLs: the Herfindahl index
is exactly 1/2 and the equality conditions line up. -/
theorem C5_herfindahl_bounds_witness :
    (1 / (([mkP "a" 7, mkP "b" 7] : List Protocol).length : ℚ)
        ≤ herfindahl [mkP "a" 7, mkP "b" 7] ∧ herfindahl [mkP "a" 7, mkP "b" 7] ≤ 1) ∧
    (herfindahl [mkP "a" 7, mkP "b" 7] = 1
        ↔ ∃ p ∈ [mkP "a" 7, mkP "b" 7], p.tvl = totalTvl [mkP "a" 7, mkP "b" 7]) ∧
    (herfindahl [mkP "a" 7, mkP "b" 7]
          = 1 / (([mkP "a" 7, mkP "b" 7] : List Protocol).length : ℚ)
        ↔ ∀ p ∈ [mkP "a" 7, mkP "b" 7], ∀ q ∈ [mkP "a" 7, mkP "b" 7], p.tvl = q.tvl) :=
  C5_herfindahl_bounds [mkP "a" 7, mkP "b" 7] (by decide) (by decide)

/-- Membership after insertion: only the inserted row is new. -/
lemma mem_insertRow (r x : PriceRow) (l : List PriceRow) (hx : x ∈ insertRow r l) :
    x = r ∨ x ∈ l := by
  induction l with
  | nil =>
    simp only [insertRow] at hx
    exact Or.inl (by simpa using hx)
  | cons s t ih =>
    unfold insertRow at hx
    by_cases h : r.date < s.date
    · rw [if_pos h] at hx
      rcases List.mem_cons.mp hx with h1 | h1
      · exact Or.inl h1
      · exact Or.inr h1
    · rw [if_neg h] at hx
      rcases List.mem_cons.mp hx with h1 | h1
      · exact Or.inr (by simp [h1])
      · rcases ih h1 with h2 | h2
        · exact Or.inl h2
        · exact Or.inr (List.mem_cons_of_mem s h2)

/-- Sorting by date introduces no new rows. -/
lemma mem_sortByDate (x : PriceRow) (l : List PriceRow) (hx : x ∈ sortByDate l) :
    x ∈ l := by
  induction l with
  | nil => simp [sortByDate] at hx
  | cons r t ih =>
    unfold sortByDate at hx
    rcases mem_insertRow r x _ hx with h | h
    · simp [h]
    · exact List.mem_cons_of_mem r (ih h)

/-- Insertion grows the length by one. -/
lemma length_insertRow (r : PriceRow) (l : List PriceRow) :
    (insertRow r l).length = l.length + 1 := by
  induction l with
  | nil => rfl
  | cons s t ih =>
    unfold insertRow
    by_cases h : r.date < s.date
    · rw [if_pos h]
      simp
    · rw [if_neg h]
      simp [ih]

/-- Sorting by date preserves the length. -/
lemma length_sortByDate (l : List PriceRow) : (sortByDate l).length = l.length := by
  induction l with
  | nil => rfl
  | cons r t ih =>
    unfold sortByDate
    rw [length_insertRow, ih]
    rfl

/-- Forward-filling a list whose entries are all present and equal to c
yields the constant list. -/
lemma ffillFrom_const (l : List (Option ℚ)) (c : ℚ) (h : ∀ o ∈ l, o = some c) :
    ∀ a, ffillFrom a l = List.replicate l.length c := by
  induction l with
  | nil => intro a; rfl
  | cons o t ih =>
    intro a
    have ho := h o (List.mem_cons_self o t)
    subst ho
    simp only [ffillFrom, List.length_cons, List.replicate_succ]
    rw [ih (fun x hx => h x (List.mem_cons_of_mem _ hx)) c]

/-- The placeholder series cleans to 30 prices of exactly 1, whatever run
date it was synthesized on. -/
lemma placeholder_prices (today : Int) :
    (processPrice (placeholder_rows today)).prices = List.replicate 30 1 := by
  have hmem : ∀ o ∈ (sortByDate (placeholder_rows today)).map PriceRow.price,
      o = some 1 := by
    intro o ho
    rcases List.mem_map.mp ho with ⟨r, hr, rfl⟩
    have hr2 := mem_sortByDate r _ hr
    rcases List.mem_map.mp hr2 with ⟨i, _, rfl⟩
    rfl
  have hlp : (placeholder_rows today).length = 30 := by
    unfold placeholder_rows
    rw [List.length_map, List.length_range]
  have hlen : ((sortByDate (placeholder_rows today)).map PriceRow.price).length = 30 := by
    rw [List.length_map, length_sortByDate, hlp]
  have hffill : ffill ((sortByDate (placeholder_rows today)).map PriceRow.price)
      = List.replicate 30 1 := by
    rw [ffill, ffillFrom_const _ 1 hmem 0, hlen]
  simp only [processPrice]
  rw [hffill]
  norm_num

/-- C6 counterexample: on the 5-observation series [1,2,3,4,5] the 7-day
return column is not all 0/undefined — the window is clamped to 4 periods
and the last row carries a 4-period return of 4 (a 400% change). -/
theorem C6_counterexample :
    ¬ (∀ r ∈ (clean_price_data 0 ex5).change7d, r = none ∨ r = some 0) := by
  decide

/-- C6 amended: on [1,2,3,4,5] the 1-day returns are
[NaN, 1, 1/2, 1/3, 1/4] (100%, 50%, 33.3%, 25% — pct_change yields
fractions); the 7-day and 30-day windows are clamped to min(7,4) = min(30,4)
= 4 periods, giving NaN for the first four rows and a return of 4 (400%) at
the last row rather than 0/undefined everywhere; the cumulative return at
the last observation is 400. -/
theorem C6_short_series_returns :
    (clean_price_data 0 ex5).change1d
        = [none, some 1, some (1/2), some (1/3), some (1/4)] ∧
    (clean_price_data 0 ex5).change7d = [none, none, none, none, some 4] ∧
    (clean_price_data 0 ex5).change30d = [none, none, none, none, some 4] ∧
    (clean_price_data 0 ex5).cumulativeReturn = [0, 100, 200, 300, 400] := by
  decide

set_option maxHeartbeats 1600000 in
/-- C7 counterexample: a non-empty price input without the date column comes
back as the empty frame of line 474 (zero rows), while the synthesized
placeholder used for empty input has 30 rows of price 1.0 — the missing-date
path does not fall back to the placeholder. -/
theorem C7_counterexample :
    (clean_price_data 0 { hasDateCol := false, rows := ex5.rows }).prices = [] ∧
    (clean_price_data 0 { hasDateCol := true, rows := [] }).prices
        = List.replicate 30 1 := by
  decide

/-- C7 amended: when the required date column is absent from a non-empty raw
price input, clean_price_data returns the empty frame, not the placeholder;
the synthesized 30-row price-1.0 placeholder series is produced exactly for
empty input. -/
theorem C7_missing_date_empty (today : Int) (df : PriceDF)
    (hnd : df.hasDateCol = false) (hne : df.rows ≠ []) :
    (clean_price_data today df).prices = [] ∧
    (clean_price_data today { hasDateCol := df.hasDateCol, rows := [] }).prices
        = List.replicate 30 1 := by
  have h1 : df.rows.isEmpty = false := by
    cases hrows : df.rows with
    | nil => exact absurd hrows hne
    | cons a l => rfl
  constructor
  · simp [clean_price_data, h1, hnd, emptyCleanPrice]
  · have hplaceholder : clean_price_data today { hasDateCol := df.hasDateCol, rows := [] }
        = processPrice (placeholder_rows today) := by
      unfold clean_price_data
      simp
    rw [hplaceholder]
    exact placeholder_prices today

/-- C7 witness: the missing-date frame with the example rows. -/
theorem C7_missing_date_empty_witness :
    (clean_price_data 7 { hasDateCol := false, rows := ex5.rows }).prices = [] ∧
    (clean_price_data 7 { hasDateCol := false, rows := ([] : List PriceRow) }).prices
        = List.replicate 30 1 :=
  C7_missing_date_empty 7 { hasDateCol := false, rows := ex5.rows } rfl (by decide)

/-- C8 counterexample: for prices [10, 5, 100, 60] the source reports max
drawdown 40 — the largest absolute drop below the running peak (40) as a
percentage of the global peak (100) — while the claimed running-peak-relative
formula gives 50 (the 10 to 5 drop is 50% of its running peak 10). -/
theorem C8_counterexample :
    max_drawdown [10, 5, 100, 60] = 40 ∧
    spec_running_peak_drawdown [10, 5, 100, 60] = 50 ∧
    max_drawdown [10, 5, 100, 60] ≠ spec_running_peak_drawdown [10, 5, 100, 60] := by
  decide

/-- C8 amended: for a non-empty price series the reported max drawdown
equals the maximum over all observations of (running peak - price), divided
by the maximum price of the whole series, times 100 — the largest absolute
peak-to-trough decline as a percentage of the global peak price, not of the
running peak at the time of the decline. -/
theorem C8_max_drawdown_global_peak (prices : List ℚ) (_hne : prices ≠ []) :
    max_drawdown prices
      = listMax (List.zipWith (fun m p => m - p) (cummax prices) prices)
          / listMax prices * 100 := by
  unfold max_drawdown
  rw [listMax_cummax]

/-- C8 witness on the counterexample series: 40 = 40 / 100 * 100. -/
theorem C8_max_drawdown_global_peak_witness :
    max_drawdown [10, 5, 100, 60]
      = listMax (List.zipWith (fun m p => m - p)
            (cummax [10, 5, 100, 60]) [10, 5, 100, 60])
          / listMax [10, 5, 100, 60] * 100 :=
  C8_max_drawdown_global_peak [10, 5, 100, 60] (by decide)

end SuiAptos
